import Mathlib

/-!
Verification of the evolutionary puzzle solver (`evol-puzzle.cpp`).

The C++ program arranges 64 square tiles (each a 4-tuple of edge motifs in
clockwise order top, right, bottom, left) in an 8x8 row-major grid.  This file
is a shallow embedding of the functions the claims are about:

* a `Tile` is a record of four natural numbers (the C++ `int[4]`; motifs are
  the digits 0..6 of the input file);
* a puzzle is a `List Tile` of length 64 (the C++ `int**` rows);
* the string signatures used as hash-map keys in the C++ code
  (`convertTileToString`) are modelled by the tiles themselves: for
  single-digit motif values the 4-character string key is in bijection with
  the 4-tuple, so `unordered_map<string, ...>` lookups become comparisons of
  tiles up to the generated rotations;
* the Mersenne-Twister random stream is dependency-injected as an explicit
  list of draws in `[0, 64)` (`uniform_int_distribution<int>(0, 63)`), and
  C++ `while` loops that consume random numbers become structural recursions
  on that list (returning `Option`, `none` meaning the stream was exhausted,
  which the real generator never is);
* `unordered_map<string, int>` counters keyed by canonical signatures are
  modelled as multisets: the value stored at key `c` is the multiplicity of
  `c` in the multiset.
-/

/-- One puzzle piece: four edge motif values in the order used by the C++
code, `arr[0] = top`, `arr[1] = right`, `arr[2] = bottom`, `arr[3] = left`. -/
structure Tile where
  top : ℕ
  right : ℕ
  bottom : ℕ
  left : ℕ
deriving DecidableEq, Inhabited

/-- `rotateToLeftByOneIndex` (evol-puzzle.cpp:32): `temp = arr[0]`, shift
`arr[i] = arr[i+1]` for `i < 3`, `arr[3] = temp`. -/
def rotateToLeftByOneIndex (t : Tile) : Tile :=
  ⟨t.right, t.bottom, t.left, t.top⟩

/-- Iterated rotation. -/
def rotN (n : ℕ) (t : Tile) : Tile :=
  rotateToLeftByOneIndex^[n] t

/-- The four rotation variants generated by the C++ code everywhere it
builds `tile_rotations_vec` (indices 0..3, i.e. 0 to 3 left shifts). -/
def rotations (t : Tile) : List Tile :=
  [t, rotN 1 t, rotN 2 t, rotN 3 t]

/-- Reading a tile of a puzzle at an index, total version of `puzzle[i]`
(the C++ accesses are always in bounds; out of bounds reads give the
default tile). -/
def getT (p : List Tile) (i : ℕ) : Tile :=
  p.getD i default

theorem rotN_zero (t : Tile) : rotN 0 t = t := rfl

theorem rotN_one (t : Tile) : rotN 1 t = rotateToLeftByOneIndex t := rfl

theorem rotN_add (a b : ℕ) (t : Tile) : rotN (a + b) t = rotN a (rotN b t) :=
  Function.iterate_add_apply _ a b t

theorem rotN_four (t : Tile) : rotN 4 t = t := by
  obtain ⟨a, b, c, d⟩ := t
  rfl

theorem rotN_four_mul (k : ℕ) (t : Tile) : rotN (4 * k) t = t := by
  induction k with
  | zero => rfl
  | succ n ih =>
    have : 4 * (n + 1) = 4 * n + 4 := by ring
    rw [this, rotN_add, rotN_four, ih]

theorem rotN_mod (n : ℕ) (t : Tile) : rotN n t = rotN (n % 4) t := by
  conv_lhs => rw [← Nat.div_add_mod n 4, rotN_add, rotN_four_mul]

theorem mem_rotations_iff {s t : Tile} : s ∈ rotations t ↔ ∃ k, s = rotN k t := by
  constructor
  · intro h
    simp only [rotations, List.mem_cons, List.not_mem_nil, or_false] at h
    rcases h with h | h | h | h
    · exact ⟨0, h⟩
    · exact ⟨1, h⟩
    · exact ⟨2, h⟩
    · exact ⟨3, h⟩
  · rintro ⟨k, rfl⟩
    rw [rotN_mod]
    have hk : k % 4 < 4 := Nat.mod_lt _ (by omega)
    set m := k % 4 with hm
    interval_cases m <;> simp [rotations, rotN_zero]

theorem rotations_self (t : Tile) : t ∈ rotations t :=
  mem_rotations_iff.2 ⟨0, rfl⟩

theorem rotations_symm {s t : Tile} (h : s ∈ rotations t) : t ∈ rotations s := by
  obtain ⟨k, rfl⟩ := mem_rotations_iff.1 h
  refine mem_rotations_iff.2 ⟨4 - k % 4, ?_⟩
  rw [rotN_mod k t, ← rotN_add]
  have : 4 - k % 4 + k % 4 = 4 := by
    have : k % 4 < 4 := Nat.mod_lt _ (by omega)
    omega
  rw [this, rotN_four]

theorem rotations_trans {s t u : Tile} (hst : s ∈ rotations t)
    (htu : t ∈ rotations u) : s ∈ rotations u := by
  obtain ⟨a, rfl⟩ := mem_rotations_iff.1 hst
  obtain ⟨b, rfl⟩ := mem_rotations_iff.1 htu
  exact mem_rotations_iff.2 ⟨a + b, (rotN_add a b u).symm⟩

theorem mem_rotations_comm {s t : Tile} (h : s ∈ rotations t) :
    ∀ w : Tile, (s ∈ rotations w ↔ t ∈ rotations w) := by
  intro w
  constructor
  · intro hsw
    exact rotations_trans (rotations_symm h) hsw
  · intro htw
    exact rotations_trans h htw

/-- Claim C9: tile rotation (`rotateToLeftByOneIndex`) is a cyclic left shift
forming a group of order 4: four applications are the identity on every tile,
one application maps `[1,2,3,4]` to `[2,3,4,1]`, and two applications map it
to `[3,4,1,2]`. -/
theorem rotate_group_of_order_four :
    (∀ t : Tile,
      rotateToLeftByOneIndex (rotateToLeftByOneIndex
        (rotateToLeftByOneIndex (rotateToLeftByOneIndex t))) = t) ∧
    rotateToLeftByOneIndex ⟨1, 2, 3, 4⟩ = ⟨2, 3, 4, 1⟩ ∧
    rotateToLeftByOneIndex (rotateToLeftByOneIndex ⟨1, 2, 3, 4⟩) = ⟨3, 4, 1, 2⟩ := by
  refine ⟨?_, rfl, rfl⟩
  intro t
  obtain ⟨a, b, c, d⟩ := t
  rfl

theorem getT_eq_getElem (p : List Tile) (i : ℕ) (h : i < p.length) :
    getT p i = p[i] :=
  List.getD_eq_getElem p default h

theorem getT_eq_default (p : List Tile) (i : ℕ) (h : p.length ≤ i) :
    getT p i = default :=
  List.getD_eq_default p default h

theorem eq_of_getT {x y : List Tile} (hx : x.length = y.length)
    (h : ∀ k, getT x k = getT y k) : x = y := by
  refine List.ext_getElem hx (fun n h1 h2 => ?_)
  rw [← getT_eq_getElem x n h1, ← getT_eq_getElem y n h2]
  exact h n

theorem getT_set_self (p : List Tile) (i : ℕ) (v : Tile) (h : i < p.length) :
    getT (p.set i v) i = v := by
  rw [getT_eq_getElem _ _ (by simpa using h), List.getElem_set]
  simp

theorem getT_set_ne (p : List Tile) (i k : ℕ) (v : Tile) (hne : i ≠ k) :
    getT (p.set i v) k = getT p k := by
  by_cases hk : k < p.length
  · rw [getT_eq_getElem _ _ (by simpa using hk), getT_eq_getElem _ _ hk]
    exact List.getElem_set_ne hne _
  · rw [getT_eq_default _ _ (by simpa using Nat.le_of_not_lt hk),
      getT_eq_default _ _ (Nat.le_of_not_lt hk)]

/-- `countEdgeMismatch` (evol-puzzle.cpp:538): one pass over all 64 cells
comparing each non-first-column cell's left edge (`puzzle[i][3]`) with its
left neighbour's right edge (`puzzle[i-1][1]`), and one pass over cells
8..63 comparing each cell's top edge (`puzzle[i][0]`) with its upper
neighbour's bottom edge (`puzzle[i-8][2]`). -/
def countEdgeMismatch (p : List Tile) : ℕ :=
  (List.range 64).countP
    (fun i => i % 8 != 0 && (getT p i).left != (getT p (i - 1)).right) +
  (List.range' 8 56).countP
    (fun i => (getT p i).top != (getT p (i - 8)).bottom)

theorem card_filter_range_eq_countP (n : ℕ) (P : ℕ → Prop) [DecidablePred P] :
    ((Finset.range n).filter P).card = (List.range n).countP (fun i => decide (P i)) := by
  induction n with
  | zero => rfl
  | succ m ih =>
    rw [Finset.range_succ, Finset.filter_insert, List.range_succ, List.countP_append]
    by_cases h : P m
    · rw [if_pos h, Finset.card_insert_of_not_mem (by simp), ih]
      simp [List.countP_cons, h]
    · rw [if_neg h, ih]
      simp [List.countP_cons, h]

/-- Claim C3: for every 64-tile puzzle, `countEdgeMismatch` returns exactly
the number of positions `i` not in column 0 whose left edge (index 3)
differs from the right edge (index 1) of tile `i-1`, plus the number of
positions `i ≥ 8` whose top edge (index 0) differs from the bottom edge
(index 2) of tile `i-8`; consequently the result lies in `[0, 112]`. -/
theorem countEdgeMismatch_spec (p : List Tile) (hlen : p.length = 64) :
    countEdgeMismatch p =
      ((Finset.range 64).filter
        (fun i => i % 8 ≠ 0 ∧ (getT p i).left ≠ (getT p (i - 1)).right)).card +
      ((Finset.range 64).filter
        (fun i => 8 ≤ i ∧ (getT p i).top ≠ (getT p (i - 8)).bottom)).card ∧
    countEdgeMismatch p ≤ 112 := by
  constructor
  · have hL : ((Finset.range 64).filter
        (fun i => i % 8 ≠ 0 ∧ (getT p i).left ≠ (getT p (i - 1)).right)).card =
        (List.range 64).countP
          (fun i => i % 8 != 0 && (getT p i).left != (getT p (i - 1)).right) := by
      rw [card_filter_range_eq_countP]
      refine List.countP_congr (fun x _ => ?_)
      simp [Bool.and_eq_true, bne_iff_ne, decide_eq_true_eq]
    have hsplit : List.range 64 = List.range' 0 8 ++ List.range' 8 56 := by
      rw [List.range_eq_range']
      have h := List.range'_append 0 8 56 1
      norm_num at h
      exact h.symm
    have hT : ((Finset.range 64).filter
        (fun i => 8 ≤ i ∧ (getT p i).top ≠ (getT p (i - 8)).bottom)).card =
        (List.range' 8 56).countP
          (fun i => (getT p i).top != (getT p (i - 8)).bottom) := by
      rw [card_filter_range_eq_countP, hsplit, List.countP_append]
      have hz : (List.range' 0 8).countP
          (fun i => decide (8 ≤ i ∧ (getT p i).top ≠ (getT p (i - 8)).bottom)) = 0 := by
        refine List.countP_eq_zero.2 (fun a ha => ?_)
        rw [List.mem_range'] at ha
        obtain ⟨j, hj, rfl⟩ := ha
        simp only [decide_eq_true_eq, not_and]
        intro h8
        omega
      rw [hz, Nat.zero_add]
      refine List.countP_congr (fun x hx => ?_)
      rw [List.mem_range'] at hx
      obtain ⟨j, hj, rfl⟩ := hx
      simp [bne_iff_ne, decide_eq_true_eq, show (8:ℕ) ≤ 8 + 1 * j by omega]
    rw [countEdgeMismatch, hL, hT]
  · have h1 : (List.range 64).countP
        (fun i => i % 8 != 0 && (getT p i).left != (getT p (i - 1)).right) ≤
        (List.range 64).countP (fun i => i % 8 != 0) := by
      refine List.countP_mono_left (fun x _ h => ?_)
      rw [Bool.and_eq_true] at h
      exact h.1
    have h2 : (List.range 64).countP (fun i => i % 8 != 0) = 56 := by decide
    have h3 : (List.range' 8 56).countP
        (fun i => (getT p i).top != (getT p (i - 8)).bottom) ≤ 56 := by
      calc (List.range' 8 56).countP (fun i => (getT p i).top != (getT p (i - 8)).bottom)
          ≤ (List.range' 8 56).length := List.countP_le_length _
        _ = 56 := List.length_range' _ _ _
    rw [countEdgeMismatch]
    omega

/-- Body of the `twoPointCrossover` swap loop (evol-puzzle.cpp:625): starting
at position `s`, swap the tile contents of the two puzzles at `n` consecutive
positions (`temp = offspring1[i][j]; offspring1[i][j] = offspring2[i][j];
offspring2[i][j] = temp`). -/
def swapSeg : List Tile → List Tile → ℕ → ℕ → List Tile × List Tile
  | o1, o2, _, 0 => (o1, o2)
  | o1, o2, s, n + 1 =>
    swapSeg (o1.set s (getT o2 s)) (o2.set s (getT o1 s)) (s + 1) n

/-- `twoPointCrossover` (evol-puzzle.cpp:607): order the two drawn crossover
points and swap the tile contents of both puzzles at every position of the
inclusive range `[min, max]`.  The two points, drawn from the injected
random stream in the C++ code, are explicit parameters here. -/
def twoPointCrossover (o1 o2 : List Tile) (cp1 cp2 : ℕ) : List Tile × List Tile :=
  swapSeg o1 o2 (min cp1 cp2) (max cp1 cp2 + 1 - min cp1 cp2)

theorem swapSeg_length (o1 o2 : List Tile) (s n : ℕ) :
    (swapSeg o1 o2 s n).1.length = o1.length ∧
    (swapSeg o1 o2 s n).2.length = o2.length := by
  induction n generalizing o1 o2 s with
  | zero => exact ⟨rfl, rfl⟩
  | succ m ih =>
    have h := ih (o1.set s (getT o2 s)) (o2.set s (getT o1 s)) (s + 1)
    simpa [swapSeg] using h

theorem getT_swapSeg (o1 o2 : List Tile) (s n k : ℕ)
    (h1 : o1.length = 64) (h2 : o2.length = 64) (hsn : s + n ≤ 64) :
    getT (swapSeg o1 o2 s n).1 k =
      (if s ≤ k ∧ k < s + n then getT o2 k else getT o1 k) ∧
    getT (swapSeg o1 o2 s n).2 k =
      (if s ≤ k ∧ k < s + n then getT o1 k else getT o2 k) := by
  induction n generalizing o1 o2 s with
  | zero =>
    rw [show swapSeg o1 o2 s 0 = (o1, o2) from rfl,
      if_neg (by omega), if_neg (by omega)]
    exact ⟨rfl, rfl⟩
  | succ m ih =>
    have hs64 : s < 64 := by omega
    have h := ih (o1.set s (getT o2 s)) (o2.set s (getT o1 s)) (s + 1)
      (by simpa using h1) (by simpa using h2) (by omega)
    rw [swapSeg]
    by_cases hk : k = s
    · subst hk
      rw [h.1, h.2, if_neg (by omega), if_pos (by omega),
        if_neg (by omega), if_pos (by omega),
        getT_set_self _ _ _ (by omega), getT_set_self _ _ _ (by omega)]
      exact ⟨rfl, rfl⟩
    · rw [h.1, h.2]
      by_cases hband : s + 1 ≤ k ∧ k < s + 1 + m
      · rw [if_pos hband, if_pos (by omega), if_pos hband, if_pos (by omega),
          getT_set_ne _ _ _ _ (Ne.symm hk), getT_set_ne _ _ _ _ (Ne.symm hk)]
        exact ⟨rfl, rfl⟩
      · rw [if_neg hband, if_neg (by omega), if_neg hband, if_neg (by omega),
          getT_set_ne _ _ _ _ (Ne.symm hk), getT_set_ne _ _ _ _ (Ne.symm hk)]
        exact ⟨rfl, rfl⟩

/-- Claim C4: `twoPointCrossover` is self-inverse — for every pair of
64-tile puzzles and every pair of crossover points in `[0, 64)`, applying
the inclusive-range segment swap twice with the same two points restores
both puzzles exactly. -/
theorem twoPointCrossover_self_inverse (o1 o2 : List Tile) (cp1 cp2 : ℕ)
    (h1 : o1.length = 64) (h2 : o2.length = 64)
    (hc1 : cp1 < 64) (hc2 : cp2 < 64) :
    twoPointCrossover (twoPointCrossover o1 o2 cp1 cp2).1
      (twoPointCrossover o1 o2 cp1 cp2).2 cp1 cp2 = (o1, o2) := by
  rw [twoPointCrossover, twoPointCrossover]
  set a := min cp1 cp2 with ha
  set n := max cp1 cp2 + 1 - min cp1 cp2 with hn
  have hsn : a + n ≤ 64 := by
    rw [ha, hn]
    rcases Nat.le_total cp1 cp2 with h | h <;> omega
  have hl1 : (swapSeg o1 o2 a n).1.length = 64 := by
    rw [(swapSeg_length o1 o2 a n).1, h1]
  have hl2 : (swapSeg o1 o2 a n).2.length = 64 := by
    rw [(swapSeg_length o1 o2 a n).2, h2]
  have hres := fun k => getT_swapSeg (swapSeg o1 o2 a n).1 (swapSeg o1 o2 a n).2
    a n k hl1 hl2 hsn
  have horig := fun k => getT_swapSeg o1 o2 a n k h1 h2 hsn
  refine Prod.ext ?_ ?_
  · refine eq_of_getT (by
      rw [(swapSeg_length _ _ a n).1, hl1, h1]) (fun k => ?_)
    rw [(hres k).1]
    by_cases hband : a ≤ k ∧ k < a + n
    · rw [if_pos hband, (horig k).2, if_pos hband]
    · rw [if_neg hband, (horig k).1, if_neg hband]
  · refine eq_of_getT (by
      rw [(swapSeg_length _ _ a n).2, hl2, h2]) (fun k => ?_)
    rw [(hres k).2]
    by_cases hband : a ≤ k ∧ k < a + n
    · rw [if_pos hband, (horig k).1, if_pos hband]
    · rw [if_neg hband, (horig k).2, if_neg hband]

/-- Lookup in the tile-identity map built by `buildMapOfTiles`
(evol-puzzle.cpp:176).  The C++ map sends every rotation signature of every
original tile to the signature of the first tile of its rotation class; a
lookup of tile `t` therefore returns the first tile of `orig` that has `t`
among its rotations (`none` models the `std::out_of_range` exception of
`unordered_map::at` for tiles from no rotation class of the original
puzzle). -/
def mapOfTilesAt (orig : List Tile) (t : Tile) : Option Tile :=
  orig.find? (fun u => decide (t ∈ rotations u))

/-- The canonical signature of a tile relative to the original puzzle: the
value found in the tile-identity map (and the tile itself where the C++ map
has no entry). -/
def canonC (orig : List Tile) (t : Tile) : Tile :=
  (mapOfTilesAt orig t).getD t

/-- The count stored by `recordDuplicateTiles` (evol-puzzle.cpp:125) at a
canonical key `c`: every original tile with `c` among its rotation
signatures bumps the count of key `c` by one. -/
def recordDuplicateTilesAt (orig : List Tile) (c : Tile) : ℕ :=
  orig.countP (fun u => decide (c ∈ rotations u))

/-- The multiset of canonical (rotation-normalised) signatures of a puzzle,
`sorted(canonicalize(p))` in the spec's notation. -/
def canonMultiset (orig p : List Tile) : Multiset Tile :=
  ((p.map (canonC orig) : List Tile) : Multiset Tile)

theorem mapOfTilesAt_congr {orig : List Tile} {s t : Tile}
    (h : s ∈ rotations t) : mapOfTilesAt orig s = mapOfTilesAt orig t := by
  unfold mapOfTilesAt
  congr 1
  funext u
  rw [decide_eq_decide]
  exact mem_rotations_comm h u

theorem canonC_rot (orig : List Tile) (t : Tile)
    (h : (mapOfTilesAt orig t).isSome) :
    canonC orig (rotateToLeftByOneIndex t) = canonC orig t := by
  unfold canonC
  rw [mapOfTilesAt_congr
    (show rotateToLeftByOneIndex t ∈ rotations t from mem_rotations_iff.2 ⟨1, rfl⟩)]
  obtain ⟨c, hc⟩ := Option.isSome_iff_exists.1 h
  rw [hc]
  rfl

theorem mapOfTilesAt_isSome_of_mem {orig : List Tile} {t u : Tile}
    (hu : u ∈ orig) (h : t ∈ rotations u) : (mapOfTilesAt orig t).isSome := by
  rw [mapOfTilesAt, List.find?_isSome]
  exact ⟨u, hu, by simpa using h⟩

theorem mapOfTilesAt_self_mem {orig : List Tile} {t : Tile} (ht : t ∈ orig) :
    (mapOfTilesAt orig t).isSome :=
  mapOfTilesAt_isSome_of_mem ht (rotations_self t)

theorem mapOfTilesAt_spec {orig : List Tile} {t c : Tile}
    (h : mapOfTilesAt orig t = some c) : c ∈ orig ∧ t ∈ rotations c := by
  refine ⟨List.mem_of_find?_eq_some h, ?_⟩
  have := List.find?_some h
  simpa using this

theorem mapOfTilesAt_idem {orig : List Tile} {t c : Tile}
    (h : mapOfTilesAt orig t = some c) : mapOfTilesAt orig c = some c := by
  rw [mapOfTilesAt_congr (rotations_symm (mapOfTilesAt_spec h).2)]
  exact h

theorem canonC_eq_of_some {orig : List Tile} {t c : Tile}
    (h : mapOfTilesAt orig t = some c) : canonC orig t = c := by
  rw [canonC, h]
  rfl

theorem coe_set_add (L : List Tile) (k : ℕ) (w : Tile) (hk : k < L.length) :
    (↑(L.set k w) : Multiset Tile) + {getT L k} = ↑L + {w} := by
  rw [getT_eq_getElem _ _ hk, List.set_eq_take_cons_drop w hk]
  conv_rhs => rw [← List.take_append_drop k L, ← List.getElem_cons_drop L k hk]
  rw [Multiset.ext]
  intro a
  simp only [Multiset.count_add, Multiset.coe_count, Multiset.count_singleton,
    List.count_append, List.count_cons, beq_iff_eq]
  have h1 : (w = a) = (a = w) := propext eq_comm
  have h2 : (L[k] = a) = (a = L[k]) := propext eq_comm
  simp only [h1, h2]
  split_ifs <;> omega

theorem set_set_swap_perm (p : List Tile) (a b : ℕ) (ha : a < p.length)
    (hb : b < p.length) (hne : a ≠ b) :
    ((p.set a (getT p b)).set b (getT p a) : List Tile).Perm p := by
  rw [← Multiset.coe_eq_coe]
  have h1 : (↑((p.set a (getT p b)).set b (getT p a)) : Multiset Tile) +
      {getT (p.set a (getT p b)) b} = ↑(p.set a (getT p b)) + {getT p a} :=
    coe_set_add _ b _ (by simpa using hb)
  have h2 : (↑(p.set a (getT p b)) : Multiset Tile) + {getT p a} = ↑p + {getT p b} :=
    coe_set_add _ a _ ha
  rw [getT_set_ne _ _ _ _ hne] at h1
  have h3 := h1.trans h2
  exact add_right_cancel h3

theorem canonMultiset_swap (orig p : List Tile) (a b : ℕ) (ha : a < p.length)
    (hb : b < p.length) (hne : a ≠ b) :
    canonMultiset orig ((p.set a (getT p b)).set b (getT p a)) =
      canonMultiset orig p := by
  unfold canonMultiset
  rw [Multiset.coe_eq_coe]
  exact (set_set_swap_perm p a b ha hb hne).map _

theorem canonMultiset_set_rot (orig p : List Tile) (d : ℕ) (hd : d < p.length)
    (hfound : (mapOfTilesAt orig (getT p d)).isSome) :
    canonMultiset orig (p.set d (rotateToLeftByOneIndex (getT p d))) =
      canonMultiset orig p := by
  unfold canonMultiset
  rw [List.map_set, canonC_rot orig _ hfound]
  have h1 : (↑((p.map (canonC orig)).set d (canonC orig (getT p d))) : Multiset Tile) +
      {getT (p.map (canonC orig)) d} =
      ↑(p.map (canonC orig)) + {canonC orig (getT p d)} :=
    coe_set_add _ d _ (by simpa using hd)
  have hmap : getT (p.map (canonC orig)) d = canonC orig (getT p d) := by
    rw [getT_eq_getElem _ _ (by simpa using hd), getT_eq_getElem _ _ hd,
      List.getElem_map]
  rw [hmap] at h1
  exact add_right_cancel h1

/-- The retry loop of `swapTile` (evol-puzzle.cpp:326): keep drawing until
the second index differs from the first.  Structural recursion on the
injected random stream replaces the C++ `while`. -/
def pickDistinct (a : Fin 64) : List (Fin 64) → Option (Fin 64 × List (Fin 64))
  | [] => none
  | d :: rest => if d = a then pickDistinct a rest else some (d, rest)

/-- The swap performed by `swapTile` (evol-puzzle.cpp:330): `temp_tile =
arr[first]`, `arr[first] = arr[second]`, `arr[second] = temp_tile`. -/
def applySwapAt (p : List Tile) (a b : Fin 64) : List Tile :=
  (p.set (a : ℕ) (getT p (b : ℕ))).set (b : ℕ) (getT p (a : ℕ))

/-- `swapTile` (evol-puzzle.cpp:321): draw the first index, redraw until a
distinct second index, then exchange the two tiles. -/
def swapTile (p : List Tile) : List (Fin 64) → Option (List Tile × List (Fin 64))
  | [] => none
  | d :: rest =>
    match pickDistinct d rest with
    | none => none
    | some (e, rest2) => some (applySwapAt p d e, rest2)

/-- The inner loop of `mutate` (evol-puzzle.cpp:838): the remaining number
of iterations together with the current iteration index `j`; an even `j`
performs `swapTile`, an odd `j` rotates the tile at a drawn position. -/
def mutateSteps : ℕ → ℕ → List Tile → List (Fin 64) →
    Option (List Tile × List (Fin 64))
  | 0, _, p, draws => some (p, draws)
  | rem + 1, j, p, draws =>
    if j % 2 = 0 then
      match swapTile p draws with
      | none => none
      | some (p2, rest) => mutateSteps rem (j + 1) p2 rest
    else
      match draws with
      | [] => none
      | d :: rest =>
        mutateSteps rem (j + 1)
          (p.set (d : ℕ) (rotateToLeftByOneIndex (getT p (d : ℕ)))) rest

/-- One individual's mutation (evol-puzzle.cpp:837): draw
`num_iterations = draw % mutation_rate`, then run the alternating steps. -/
def mutateOne (rate : ℕ) (p : List Tile) :
    List (Fin 64) → Option (List Tile × List (Fin 64))
  | [] => none
  | d :: rest => mutateSteps ((d : ℕ) % rate) 0 p rest

/-- `mutate` (evol-puzzle.cpp:831): mutate every offspring in order,
threading the injected random stream through all calls. -/
def mutate (rate : ℕ) : List (List Tile) → List (Fin 64) →
    Option (List (List Tile) × List (Fin 64))
  | [], draws => some ([], draws)
  | p :: ps, draws =>
    match mutateOne rate p draws with
    | none => none
    | some (p2, rest) =>
      match mutate rate ps rest with
      | none => none
      | some (ps2, rest2) => some (p2 :: ps2, rest2)

theorem pickDistinct_ne {a e : Fin 64} :
    ∀ {l rest : List (Fin 64)}, pickDistinct a l = some (e, rest) → e ≠ a := by
  intro l
  induction l with
  | nil => intro rest h; cases h
  | cons d ds ih =>
    intro rest h
    simp only [pickDistinct] at h
    by_cases hd : d = a
    · rw [if_pos hd] at h
      exact ih h
    · rw [if_neg hd] at h
      simp only [Option.some.injEq, Prod.mk.injEq] at h
      obtain ⟨rfl, rfl⟩ := h
      exact hd

theorem applySwapAt_canonM (orig p : List Tile) (a b : Fin 64)
    (hlen : p.length = 64) (hne : a ≠ b) :
    canonMultiset orig (applySwapAt p a b) = canonMultiset orig p := by
  refine canonMultiset_swap orig p (a : ℕ) (b : ℕ) (by omega) (by omega) ?_
  intro h
  exact hne (Fin.ext h)

theorem applySwapAt_perm (p : List Tile) (a b : Fin 64)
    (hlen : p.length = 64) (hne : a ≠ b) : (applySwapAt p a b).Perm p := by
  refine set_set_swap_perm p (a : ℕ) (b : ℕ) (by omega) (by omega) ?_
  intro h
  exact hne (Fin.ext h)

theorem applySwapAt_length (p : List Tile) (a b : Fin 64) :
    (applySwapAt p a b).length = p.length := by
  simp [applySwapAt]

theorem swapTile_spec (orig p q : List Tile) (draws rest1 : List (Fin 64))
    (hlen : p.length = 64) (hsw : swapTile p draws = some (q, rest1)) :
    q.length = 64 ∧ q.Perm p ∧ canonMultiset orig q = canonMultiset orig p := by
  cases draws with
  | nil => cases hsw
  | cons d ds =>
    simp only [swapTile] at hsw
    rcases hpick : pickDistinct d ds with _ | ⟨e, rest2⟩
    · rw [hpick] at hsw
      cases hsw
    · rw [hpick] at hsw
      simp only [Option.some.injEq, Prod.mk.injEq] at hsw
      obtain ⟨hq, hrest⟩ := hsw
      have hne : e ≠ d := pickDistinct_ne hpick
      subst hq
      refine ⟨by rw [applySwapAt_length, hlen], ?_, ?_⟩
      · exact applySwapAt_perm p d e hlen (fun hx => hne hx.symm)
      · exact applySwapAt_canonM orig p d e hlen (fun hx => hne hx.symm)

theorem mutateSteps_spec (orig : List Tile) :
    ∀ (rem j : ℕ) (p p2 : List Tile) (draws rest : List (Fin 64)),
    p.length = 64 →
    (∀ t ∈ p, (mapOfTilesAt orig t).isSome) →
    mutateSteps rem j p draws = some (p2, rest) →
    p2.length = 64 ∧ canonMultiset orig p2 = canonMultiset orig p := by
  intro rem
  induction rem with
  | zero =>
    intro j p p2 draws rest hlen hfound h
    simp only [mutateSteps, Option.some.injEq, Prod.mk.injEq] at h
    obtain ⟨rfl, rfl⟩ := h
    exact ⟨hlen, rfl⟩
  | succ m ih =>
    intro j p p2 draws rest hlen hfound h
    simp only [mutateSteps] at h
    by_cases hj : j % 2 = 0
    · rw [if_pos hj] at h
      rcases hsw : swapTile p draws with _ | ⟨q, rest1⟩
      · rw [hsw] at h
        cases h
      · rw [hsw] at h
        obtain ⟨hqlen, hperm, hqcanon⟩ := swapTile_spec orig p q draws rest1 hlen hsw
        have hqfound : ∀ t ∈ q, (mapOfTilesAt orig t).isSome := by
          intro t ht
          exact hfound t (hperm.mem_iff.1 ht)
        obtain ⟨hl2, hc2⟩ := ih (j + 1) q p2 rest1 rest hqlen hqfound h
        exact ⟨hl2, hc2.trans hqcanon⟩
    · rw [if_neg hj] at h
      cases draws with
      | nil => cases h
      | cons d ds =>
        have hd64 : (d : ℕ) < p.length := by rw [hlen]; exact d.isLt
        have hdfound : (mapOfTilesAt orig (getT p (d : ℕ))).isSome := by
          refine hfound _ ?_
          rw [getT_eq_getElem _ _ hd64]
          exact List.getElem_mem _
        have hqlen : (p.set (d : ℕ) (rotateToLeftByOneIndex (getT p (d : ℕ)))).length = 64 := by
          rw [List.length_set, hlen]
        have hqfound : ∀ t ∈ p.set (d : ℕ) (rotateToLeftByOneIndex (getT p (d : ℕ))),
            (mapOfTilesAt orig t).isSome := by
          intro t ht
          rcases List.mem_or_eq_of_mem_set ht with ht2 | ht2
          · exact hfound t ht2
          · subst ht2
            rw [mapOfTilesAt_congr
              (show rotateToLeftByOneIndex (getT p (d : ℕ)) ∈ rotations (getT p (d : ℕ))
                from mem_rotations_iff.2 ⟨1, rfl⟩)]
            exact hdfound
        have hqcanon : canonMultiset orig
            (p.set (d : ℕ) (rotateToLeftByOneIndex (getT p (d : ℕ)))) =
            canonMultiset orig p :=
          canonMultiset_set_rot orig p (d : ℕ) hd64 hdfound
        obtain ⟨hl2, hc2⟩ := ih (j + 1) _ p2 ds rest hqlen hqfound h
        exact ⟨hl2, hc2.trans hqcanon⟩

theorem mutateOne_spec (orig : List Tile) (rate : ℕ) (p p2 : List Tile)
    (draws rest : List (Fin 64)) (hlen : p.length = 64)
    (hfound : ∀ t ∈ p, (mapOfTilesAt orig t).isSome)
    (h : mutateOne rate p draws = some (p2, rest)) :
    p2.length = 64 ∧ canonMultiset orig p2 = canonMultiset orig p := by
  cases draws with
  | nil => cases h
  | cons d ds => exact mutateSteps_spec orig _ 0 p p2 ds rest hlen hfound h

/-- Claim C5: for every population of 64-tile individuals whose tiles are
instances of the original puzzle's tiles (so that canonical signatures are
defined), every random stream and every mutation rate, whenever `mutate`
completes it preserves each individual's multiset of canonical
(rotation-normalised) tiles: every mutation step is either a swap of two
distinct tile positions or a left rotation of one tile. -/
theorem mutate_preserves_canonical_multiset (orig : List Tile) (rate : ℕ)
    (pop pop2 : List (List Tile)) (draws rest : List (Fin 64))
    (hlen : ∀ p ∈ pop, p.length = 64)
    (hfound : ∀ p ∈ pop, ∀ t ∈ p, (mapOfTilesAt orig t).isSome)
    (h : mutate rate pop draws = some (pop2, rest)) :
    pop2.length = pop.length ∧
    ∀ i : ℕ, canonMultiset orig (pop2.getD i []) =
      canonMultiset orig (pop.getD i []) := by
  induction pop generalizing pop2 draws rest with
  | nil =>
    simp only [mutate, Option.some.injEq, Prod.mk.injEq] at h
    obtain ⟨rfl, rfl⟩ := h
    exact ⟨rfl, fun i => rfl⟩
  | cons p ps ih =>
    simp only [mutate] at h
    rcases h1 : mutateOne rate p draws with _ | ⟨q, rest1⟩
    · rw [h1] at h
      cases h
    · rw [h1] at h
      dsimp only at h
      rcases h2 : mutate rate ps rest1 with _ | ⟨qs, rest2⟩
      · rw [h2] at h
        cases h
      · rw [h2] at h
        simp only [Option.some.injEq, Prod.mk.injEq] at h
        obtain ⟨rfl, rfl⟩ := h
        have hq := mutateOne_spec orig rate p q draws rest1
          (hlen p (List.mem_cons_self p ps))
          (hfound p (List.mem_cons_self p ps)) h1
        have hqs := ih qs rest1 rest2 (fun x hx => hlen x (List.mem_cons_of_mem p hx))
          (fun x hx => hfound x (List.mem_cons_of_mem p hx)) h2
        refine ⟨by simpa using hqs.1, fun i => ?_⟩
        cases i with
        | zero => exact hq.2
        | succ n => exact hqs.2 n

/-- A concrete 64-tile puzzle (motif values 0..6) used as a witness input. -/
def pzA : List Tile :=
  (List.range 64).map (fun n => ⟨n % 7, (n + 1) % 7, (n + 2) % 7, (n + 3) % 7⟩)

/-- A concrete random stream for the mutation witness: iteration count
3 % 5 = 3, a swap of positions 0 and 1, a rotation at position 2, and a
swap of positions 3 and 4. -/
def drawsC5 : List (Fin 64) := [3, 0, 1, 2, 3, 4]

theorem mutate_preserves_canonical_multiset_witness :
    mutate 5 [pzA] drawsC5 =
      some (((mutate 5 [pzA] drawsC5).getD ([], [])).1,
        ((mutate 5 [pzA] drawsC5).getD ([], [])).2) ∧
    canonMultiset pzA ((((mutate 5 [pzA] drawsC5).getD ([], [])).1).getD 0 []) =
      canonMultiset pzA (([pzA] : List (List Tile)).getD 0 []) := by
  refine ⟨by rfl, ?_⟩
  exact (mutate_preserves_canonical_multiset pzA 5 [pzA] _ drawsC5 _
    (by decide) (by decide) (by rfl)).2 0

/-- A second concrete 64-tile puzzle for crossover witnesses. -/
def pzB : List Tile :=
  (List.range 64).map (fun n => ⟨(n + 2) % 7, (n + 5) % 7, n % 7, (n + 1) % 7⟩)

theorem countEdgeMismatch_spec_witness :
    pzA.length = 64 ∧
    (countEdgeMismatch pzA =
      ((Finset.range 64).filter
        (fun i => i % 8 ≠ 0 ∧ (getT pzA i).left ≠ (getT pzA (i - 1)).right)).card +
      ((Finset.range 64).filter
        (fun i => 8 ≤ i ∧ (getT pzA i).top ≠ (getT pzA (i - 8)).bottom)).card ∧
    countEdgeMismatch pzA ≤ 112) :=
  ⟨by decide, countEdgeMismatch_spec pzA (by decide)⟩

theorem twoPointCrossover_self_inverse_witness :
    pzA.length = 64 ∧ pzB.length = 64 ∧ 5 < 64 ∧ 20 < 64 ∧
    twoPointCrossover (twoPointCrossover pzA pzB 5 20).1
      (twoPointCrossover pzA pzB 5 20).2 5 20 = (pzA, pzB) :=
  ⟨by decide, by decide, by decide, by decide,
    twoPointCrossover_self_inverse pzA pzB 5 20 (by decide) (by decide)
      (by decide) (by decide)⟩

/-- Outcome of `readInput` (evol-puzzle.cpp:361).  `fatalError` stands for
the abort/throw that the spec's error taxonomy requires for a missing or
unreadable input file (the function's own doc comment says `@throws
runtime_error If the file cannot be opened`); `outOfBounds` stands for the
undefined behaviour of indexing `digitsArray[i][j]` beyond its size in the
copy loop. -/
inductive ReadResult where
  | fatalError : ReadResult
  | ok : List Tile → ReadResult
  | outOfBounds : ReadResult
deriving DecidableEq

/-- The tokenisation performed by `stream >> number` (evol-puzzle.cpp:380):
whitespace-separated tokens of the raw character stream. -/
def tokenize : List Char → List Char → List (List Char)
  | [], acc => if acc = [] then [] else [acc.reverse]
  | c :: cs, acc =>
    if c = ' ' ∨ c = '\n' ∨ c = '\t' ∨ c = '\r' then
      if acc = [] then tokenize cs [] else acc.reverse :: tokenize cs []
    else tokenize cs (c :: acc)

/-- The parse of the buffer contents (evol-puzzle.cpp:376-387): each token
becomes the list of `digit - '0'` values of its characters. -/
def parseTokens (content : List Char) : List (List ℕ) :=
  (tokenize content []).map (fun tok => tok.map (fun ch => ch.toNat - 48))

/-- `readInput` (evol-puzzle.cpp:361), taking the file as an optional
character stream (`none` = the file could not be opened).  When the file
cannot be opened the C++ code only writes a message to `cerr` and carries
on with an empty buffer; the copy loop then reads `digitsArray[i][j]` for
all `i < 64`, `j < 4` unconditionally, which is out of bounds whenever
fewer than 64 tokens of at least 4 digits were parsed. -/
def readInput (file : Option (List Char)) : ReadResult :=
  let content := match file with
    | none => []
    | some s => s
  let digitsArray := parseTokens content
  if 64 ≤ digitsArray.length ∧ ∀ row ∈ digitsArray.take 64, 4 ≤ row.length then
    ReadResult.ok ((digitsArray.take 64).map
      (fun row => ⟨row.getD 0 0, row.getD 1 0, row.getD 2 0, row.getD 3 0⟩))
  else ReadResult.outOfBounds

/-- Claim C6 (code bug): for a missing input file `readInput` does not
abort and does not raise any error — it continues into the copy loop and
performs an out-of-bounds access (undefined behaviour); no execution path
of the function produces the fatal error that the spec (and the function's
own `@throws` documentation) requires. -/
theorem readInput_missing_file_not_fatal :
    readInput none = ReadResult.outOfBounds ∧
    ∀ f : Option (List Char), readInput f ≠ ReadResult.fatalError := by
  constructor
  · rfl
  · intro f
    unfold readInput
    dsimp only
    split_ifs <;> intro h <;> cases h

/-- The `stagnation_threshold` initialisation (evol-puzzle.cpp:728):
`1000`, then `max(10, (1000/POPULATION_SIZE) * 1000)` with C integer
division. -/
def stagnationThreshold (populationSize : ℕ) : ℕ :=
  max 10 (1000 / populationSize * 1000)

/-- One generation's stagnation bookkeeping (evol-puzzle.cpp:766 and
770-775): on improvement the counter was just reset to 0; the counter is
then pre-incremented and a repopulation seeded from the all-time-best
puzzle is forced when it equals the threshold, 10x the threshold or 100x
the threshold; it is reset to 0 only at the 100x tier.  Returns the new
counter and whether repopulation is forced. -/
def stagnationStep (threshold counter : ℕ) (improved : Bool) : ℕ × Bool :=
  let c := (if improved then 0 else counter) + 1
  if c = threshold ∨ c = threshold * 10 ∨ c = threshold * 100 then
    (if c = threshold * 100 then 0 else c, true)
  else (c, false)

/-- Claim C7: the stagnation threshold equals
`max(10, (1000/populationSize) * 1000)` (integer division), repopulation is
forced exactly when the incremented counter reaches the threshold, 10x the
threshold or 100x the threshold, and the counter is reset to 0 only at the
100x tier (aside from the reset on improvement, which is the `improved`
flag here). -/
theorem stagnation_tiers_spec (populationSize counter : ℕ) (improved : Bool) :
    stagnationThreshold populationSize = max 10 (1000 / populationSize * 1000) ∧
    ((stagnationStep (stagnationThreshold populationSize) counter improved).2 = true ↔
      ((if improved then 0 else counter) + 1 = stagnationThreshold populationSize ∨
       (if improved then 0 else counter) + 1 = 10 * stagnationThreshold populationSize ∨
       (if improved then 0 else counter) + 1 = 100 * stagnationThreshold populationSize)) ∧
    ((stagnationStep (stagnationThreshold populationSize) counter improved).1 = 0 ↔
      (if improved then 0 else counter) + 1 = 100 * stagnationThreshold populationSize) := by
  have ht : 10 ≤ stagnationThreshold populationSize := le_max_left _ _
  refine ⟨rfl, ?_, ?_⟩ <;>
    · unfold stagnationStep
      dsimp only
      split_ifs <;> simp <;> omega

/-- `ratio_adjusted_pop_size` (evol-puzzle.cpp:733-735):
`POPULATION_SIZE * 0.25` truncated to `int` (the float product is exact for
`populationSize = 100`, the case of the claim), then incremented by one if
odd so that parents pair up. -/
def ratioAdjustedPopSize (populationSize : ℕ) : ℕ :=
  if populationSize / 4 % 2 = 0 then populationSize / 4
  else populationSize / 4 + 1

/-- `selectParentsAndWorst` (evol-puzzle.cpp:929): with the ranking sorted
descending by mismatch count, the parents are the entries from position
`POPULATION_SIZE - ratio_adjusted_pop_size` to the end (the lowest
mismatch counts) and the worst are the first `ratio_adjusted_pop_size`
entries (the highest mismatch counts). -/
def selectParentsAndWorst (populationSize : ℕ) (sorted : List (ℕ × ℕ))
    (k : ℕ) : List ℕ × List ℕ :=
  ((sorted.drop (populationSize - k)).map Prod.fst,
   (sorted.take k).map Prod.fst)

/-- Claim C8: for `populationSize = 100` and elite ratio `0.25` the elite
count is 26 (25 incremented to even), and `selectParentsAndWorst` returns
exactly 26 parent indices (the 26 lowest-mismatch individuals, the tail of
the descending-sorted ranking) and exactly 26 worst indices (the head),
the two sets being disjoint when the ranking's indices are distinct. -/
theorem selectParentsAndWorst_100_spec (sorted : List (ℕ × ℕ))
    (hlen : sorted.length = 100)
    (hnodup : (sorted.map Prod.fst).Nodup)
    (hsorted : sorted.Pairwise (fun a b => b.2 ≤ a.2)) :
    ratioAdjustedPopSize 100 = 26 ∧
    (selectParentsAndWorst 100 sorted 26).1.length = 26 ∧
    (selectParentsAndWorst 100 sorted 26).2.length = 26 ∧
    (selectParentsAndWorst 100 sorted 26).1 = (sorted.drop 74).map Prod.fst ∧
    (selectParentsAndWorst 100 sorted 26).2 = (sorted.take 26).map Prod.fst ∧
    (∀ x ∈ (selectParentsAndWorst 100 sorted 26).1,
      x ∉ (selectParentsAndWorst 100 sorted 26).2) ∧
    (∀ a ∈ sorted.drop 74, ∀ b ∈ sorted.take 26, a.2 ≤ b.2) := by
  have htake : (sorted.take 26).Sublist (sorted.take 74) := by
    have h1 : sorted.take 26 = (sorted.take 74).take 26 := by
      rw [List.take_take]
      norm_num
    rw [h1]
    exact List.take_sublist _ _
  refine ⟨rfl, ?_, ?_, rfl, rfl, ?_, ?_⟩
  · simp [selectParentsAndWorst, List.length_drop, hlen]
  · simp [selectParentsAndWorst, List.length_take, hlen]
  · intro x hx hxw
    have hsplit : sorted.map Prod.fst =
        (sorted.take 74).map Prod.fst ++ (sorted.drop 74).map Prod.fst := by
      rw [← List.map_append, List.take_append_drop]
    rw [hsplit, List.nodup_append] at hnodup
    obtain ⟨-, -, hdisj⟩ := hnodup
    have hx74 : x ∈ (sorted.take 74).map Prod.fst :=
      (htake.map Prod.fst).subset hxw
    exact hdisj hx74 hx
  · intro a ha b hb
    have hp := hsorted
    rw [← List.take_append_drop 74 sorted, List.pairwise_append] at hp
    obtain ⟨-, -, hcross⟩ := hp
    exact hcross b (htake.subset hb) a ha

/-- A concrete descending ranking of 100 individuals (index `i` has
mismatch `100 - i`) witnessing the selection theorem. -/
def sortedEx : List (ℕ × ℕ) :=
  (List.range 100).map (fun i => (i, 100 - i))

theorem selectParentsAndWorst_100_spec_witness :
    sortedEx.length = 100 ∧ (sortedEx.map Prod.fst).Nodup ∧
    sortedEx.Pairwise (fun a b => b.2 ≤ a.2) ∧
    (ratioAdjustedPopSize 100 = 26 ∧
     (selectParentsAndWorst 100 sortedEx 26).1.length = 26 ∧
     (selectParentsAndWorst 100 sortedEx 26).2.length = 26 ∧
     (selectParentsAndWorst 100 sortedEx 26).1 = (sortedEx.drop 74).map Prod.fst ∧
     (selectParentsAndWorst 100 sortedEx 26).2 = (sortedEx.take 26).map Prod.fst ∧
     (∀ x ∈ (selectParentsAndWorst 100 sortedEx 26).1,
       x ∉ (selectParentsAndWorst 100 sortedEx 26).2) ∧
     (∀ a ∈ sortedEx.drop 74, ∀ b ∈ sortedEx.take 26, a.2 ≤ b.2)) :=
  ⟨by decide, by decide, by decide,
    selectParentsAndWorst_100_spec sortedEx (by decide) (by decide) (by decide)⟩

/-- Consecutive circular writes into a 64-slot puzzle: the write cursor
`j = (j + 1) % TILES_IN_PUZZLE_COUNT` of the order-crossover loops
(evol-puzzle.cpp:661, 684, 697); position `start + k` is written modulo
64. -/
def writeCirc : List Tile → ℕ → List Tile → List Tile
  | base, _, [] => base
  | base, j, v :: vs => writeCirc (base.set (j % 64) v) (j + 1) vs

theorem writeCirc_length (vs : List Tile) :
    ∀ (base : List Tile) (j : ℕ), (writeCirc base j vs).length = base.length := by
  induction vs with
  | nil => intro base j; rfl
  | cons v tl ih =>
    intro base j
    rw [writeCirc, ih, List.length_set]

theorem writeCirc_mod (vs : List Tile) :
    ∀ (base : List Tile) (j : ℕ), writeCirc base (j % 64) vs = writeCirc base j vs := by
  induction vs with
  | nil => intro base j; rfl
  | cons v tl ih =>
    intro base j
    rw [writeCirc, writeCirc]
    have h1 : j % 64 % 64 = j % 64 := by omega
    rw [h1]
    have h2 := ih (base.set (j % 64) v) (j % 64 + 1)
    have h3 := ih (base.set (j % 64) v) (j + 1)
    have h4 : (j % 64 + 1) % 64 = (j + 1) % 64 := by omega
    rw [← h2, ← h3, h4]

theorem writeCirc_append (u : List Tile) :
    ∀ (w base : List Tile) (j : ℕ),
    writeCirc base j (u ++ w) = writeCirc (writeCirc base j u) (j + u.length) w := by
  induction u with
  | nil => intro w base j; simp [writeCirc]
  | cons v tl ih =>
    intro w base j
    rw [List.cons_append, writeCirc, writeCirc, ih]
    have : j + 1 + tl.length = j + (tl.length + 1) := by omega
    rw [this]
    rfl

theorem take_succ_set (base : List Tile) (j : ℕ) (v : Tile)
    (h : j < base.length) :
    (base.set j v).take (j + 1) = base.take j ++ [v] := by
  rw [List.set_eq_take_cons_drop v h, List.take_append_eq_append_take]
  have h1 : (base.take j).length = j := by
    rw [List.length_take]
    omega
  rw [List.take_of_length_le (by omega), h1]
  have h2 : j + 1 - j = 1 := by omega
  rw [h2]
  rfl

theorem drop_set_of_lt (base : List Tile) (j m : ℕ) (v : Tile)
    (h : j < base.length) (hm : j < m) :
    (base.set j v).drop m = base.drop m := by
  rw [List.set_eq_take_cons_drop v h]
  have h1 : (base.take j).length = j := by
    rw [List.length_take]
    omega
  rw [List.drop_append_eq_append_drop, h1,
    List.drop_eq_nil_of_le (by rw [h1]; omega), List.nil_append]
  cases hmj : m - j with
  | zero => omega
  | succ n =>
    rw [List.drop_succ_cons, List.drop_drop]
    congr 1
    omega

theorem writeCirc_nowrap (vs : List Tile) :
    ∀ (base : List Tile) (j : ℕ), base.length = 64 → j + vs.length ≤ 64 →
    writeCirc base j vs = base.take j ++ vs ++ base.drop (j + vs.length) := by
  induction vs with
  | nil =>
    intro base j hb hj
    rw [writeCirc]
    simp [List.take_append_drop]
  | cons v tl ih =>
    intro base j hb hj
    have hjlt : j < 64 := by
      have := List.length_cons v tl ▸ hj
      omega
    have hjmod : j % 64 = j := by omega
    rw [writeCirc, hjmod,
      ih (base.set j v) (j + 1) (by rw [List.length_set, hb])
        (by rw [List.length_cons] at hj; omega)]
    rw [take_succ_set base j v (by omega),
      drop_set_of_lt base j (j + 1 + tl.length) v (by omega) (by omega)]
    have harith : j + 1 + tl.length = j + (v :: tl).length := by
      rw [List.length_cons]
      omega
    rw [harith]
    simp only [List.append_assoc, List.cons_append, List.nil_append,
      List.singleton_append]

theorem writeCirc_wrap (base vs : List Tile) (q1 q2 : ℕ)
    (hb : base.length = 64) (hq1 : q1 ≤ q2) (hq2 : q2 < 64)
    (hlen : vs.length = 64 - q2 + q1) :
    writeCirc base q2 vs =
      vs.drop (64 - q2) ++ (base.take q2).drop q1 ++ vs.take (64 - q2) := by
  have hsplit : vs = vs.take (64 - q2) ++ vs.drop (64 - q2) :=
    (List.take_append_drop _ vs).symm
  have htlen : (vs.take (64 - q2)).length = 64 - q2 := by
    rw [List.length_take]
    omega
  have hdlen : (vs.drop (64 - q2)).length = q1 := by
    rw [List.length_drop]
    omega
  conv_lhs => rw [hsplit]
  rw [writeCirc_append, htlen]
  have hX : writeCirc base q2 (vs.take (64 - q2)) =
      base.take q2 ++ vs.take (64 - q2) := by
    rw [writeCirc_nowrap _ base q2 hb (by omega), htlen]
    have : q2 + (64 - q2) = 64 := by omega
    rw [this, ← hb, List.drop_length, List.append_nil]
  rw [hX]
  have hXlen : (base.take q2 ++ vs.take (64 - q2)).length = 64 := by
    rw [List.length_append, List.length_take, htlen]
    omega
  have h64 : q2 + (64 - q2) = 64 := by omega
  rw [h64, ← writeCirc_mod]
  have hz : 64 % 64 = 0 := by omega
  rw [hz, writeCirc_nowrap _ _ 0 hXlen (by omega)]
  rw [List.take_zero, List.nil_append, Nat.zero_add, hdlen]
  have hdq : (base.take q2 ++ vs.take (64 - q2)).drop q1 =
      (base.take q2).drop q1 ++ vs.take (64 - q2) :=
    List.drop_append_of_le_length (by rw [List.length_take]; omega)
  rw [hdq, List.append_assoc]

/-- The two filling loops of `orderCrossover` (evol-puzzle.cpp:684 and
697).  `P` is the parent scanned circularly from the second crossover
point, `tracked` the per-offspring consumed-count map (a multiset whose
count at `c` is the C++ map's value at key `c`), `off` the offspring
being filled, `countLimit = 64 - (q2 - q1)` tiles still to place.  Each
iteration looks up the canonical signature of `P[i % 64]` in the
tile-identity map (`none` models the `std::out_of_range` exception of
`map_of_tiles.at` for an unknown signature), places the tile at `j % 64`
when its consumed count is still below the duplicate count
(`trackedDuplicates[c] < duplicatesMap.at(c)`), and always advances the
scan cursor `i = (i + 1) % 64`.  The C++ `for` stops only when `count`
reaches `count_limit`; `fuel` bounds the recursion here, and
`fillLoop_spec` shows `64 * 64` iterations always suffice under the
multiset invariant. -/
def fillLoop (orig P : List Tile) (countLimit : ℕ) :
    ℕ → ℕ → ℕ → ℕ → Multiset Tile → List Tile → Option (List Tile)
  | 0, _, _, _, _, _ => none
  | fuel + 1, i, j, count, tracked, off =>
    if count = countLimit then some off
    else
      match mapOfTilesAt orig (getT P (i % 64)) with
      | none => none
      | some c =>
        if tracked.count c < recordDuplicateTilesAt orig c then
          fillLoop orig P countLimit fuel ((i + 1) % 64) ((j + 1) % 64)
            (count + 1) (c ::ₘ tracked) (off.set (j % 64) (getT P (i % 64)))
        else
          fillLoop orig P countLimit fuel ((i + 1) % 64) j count tracked off

theorem recordDuplicateTilesAt_eq_count {orig : List Tile} {t c : Tile}
    (h : mapOfTilesAt orig t = some c) :
    recordDuplicateTilesAt orig c = (canonMultiset orig orig).count c := by
  have hrep : mapOfTilesAt orig c = some c := mapOfTilesAt_idem h
  rw [canonMultiset, Multiset.coe_count, List.count_eq_countP, List.countP_map,
    recordDuplicateTilesAt]
  refine List.countP_congr (fun u hu => ?_)
  simp only [decide_eq_true_eq, Function.comp_apply, beq_iff_eq]
  constructor
  · intro hcu
    have humap : mapOfTilesAt orig u = some c := by
      rw [mapOfTilesAt_congr (rotations_symm hcu)]
      exact hrep
    exact canonC_eq_of_some humap
  · intro hcu
    rcases hmu : mapOfTilesAt orig u with _ | v
    · simp only [canonC, hmu, Option.getD_none] at hcu
      subst hcu
      exact rotations_self u
    · have hvc : v = c := by
        simp only [canonC, hmu, Option.getD_some] at hcu
        exact hcu
      subst hvc
      exact rotations_symm (mapOfTilesAt_spec hmu).2

theorem found_of_canonMultiset_eq {orig P : List Tile}
    (hP : canonMultiset orig P = canonMultiset orig orig) :
    ∀ t ∈ P, (mapOfTilesAt orig t).isSome := by
  intro t ht
  rcases hmt : mapOfTilesAt orig t with _ | v
  · exfalso
    have hct : canonC orig t = t := by
      simp only [canonC, hmt, Option.getD_none]
    have hmem : t ∈ canonMultiset orig P := by
      rw [canonMultiset]
      exact Multiset.mem_coe.2 (List.mem_map.2 ⟨t, ht, hct⟩)
    rw [hP] at hmem
    obtain ⟨u, hu, hcu⟩ := List.mem_map.1 (Multiset.mem_coe.1 hmem)
    rcases hmu : mapOfTilesAt orig u with _ | v
    · have hut : u = t := by
        simp only [canonC, hmu, Option.getD_none] at hcu
        exact hcu
      subst hut
      have := mapOfTilesAt_self_mem hu
      rw [hmt] at this
      cases this
    · have hvt : v = t := by
        simp only [canonC, hmu, Option.getD_some] at hcu
        exact hcu
      subst hvt
      have htorig := (mapOfTilesAt_spec hmu).1
      have := mapOfTilesAt_self_mem htorig
      rw [hmt] at this
      cases this
  · rfl

/-- A scan position whose tile the fill loop can currently place: the
canonical lookup succeeds and the consumed count is below the duplicate
count. -/
def isPlace (orig P : List Tile) (tracked : Multiset Tile) (k : ℕ) : Prop :=
  ∃ c, mapOfTilesAt orig (getT P (k % 64)) = some c ∧
    Multiset.count c tracked < recordDuplicateTilesAt orig c

theorem fillLoop_spec (orig P : List Tile) (countLimit : ℕ)
    (hP64 : P.length = 64)
    (hPcanon : canonMultiset orig P = canonMultiset orig orig) :
    ∀ need fuel i j count : ℕ, ∀ tracked : Multiset Tile, ∀ off : List Tile,
    countLimit - count = need → count ≤ countLimit →
    tracked ≤ canonMultiset orig orig →
    Multiset.card tracked + need = Multiset.card (canonMultiset orig orig) →
    64 * need < fuel →
    ∃ F : List Tile,
      fillLoop orig P countLimit fuel i j count tracked off =
        some (writeCirc off j F) ∧
      F.length = need ∧
      ((F.map (canonC orig) : List Tile) : Multiset Tile) =
        canonMultiset orig orig - tracked := by
  have hfound := found_of_canonMultiset_eq hPcanon
  intro need
  induction need with
  | zero =>
    intro fuel i j count tracked off h1 h2 h3 h4 h5
    have hcc : count = countLimit := by omega
    cases fuel with
    | zero => omega
    | succ f =>
      refine ⟨[], ?_, rfl, ?_⟩
      · simp only [fillLoop, if_pos hcc]
        rfl
      · have heq : tracked = canonMultiset orig orig :=
          Multiset.eq_of_le_of_card_le h3 (by omega)
        rw [heq, List.map_nil]
        rw [Multiset.ext]
        intro x
        simp [Multiset.count_sub]
  | succ n ihneed =>
    have window : ∀ w : ℕ, ∀ fuel i j count : ℕ,
        ∀ tracked : Multiset Tile, ∀ off : List Tile,
        countLimit - count = n + 1 → count ≤ countLimit →
        tracked ≤ canonMultiset orig orig →
        Multiset.card tracked + (n + 1) = Multiset.card (canonMultiset orig orig) →
        64 * n + w < fuel →
        (∃ m, m < w ∧ isPlace orig P tracked (i + m)) →
        ∃ F : List Tile,
          fillLoop orig P countLimit fuel i j count tracked off =
            some (writeCirc off j F) ∧
          F.length = n + 1 ∧
          ((F.map (canonC orig) : List Tile) : Multiset Tile) =
            canonMultiset orig orig - tracked := by
      intro w
      induction w with
      | zero =>
        intro fuel i j count tracked off h1 h2 h3 h4 h5 hpl
        obtain ⟨m, hm, -⟩ := hpl
        omega
      | succ v ihw =>
        intro fuel i j count tracked off h1 h2 h3 h4 h5 hpl
        cases fuel with
        | zero => omega
        | succ f =>
          have hne : ¬(count = countLimit) := by omega
          have hi64 : i % 64 < P.length := by rw [hP64]; omega
          have hmem : getT P (i % 64) ∈ P := by
            rw [getT_eq_getElem _ _ hi64]
            exact List.getElem_mem _
          obtain ⟨c0, hc0⟩ := Option.isSome_iff_exists.1 (hfound _ hmem)
          by_cases hguard :
              Multiset.count c0 tracked < recordDuplicateTilesAt orig c0
          · have hcap : recordDuplicateTilesAt orig c0 =
                (canonMultiset orig orig).count c0 :=
              recordDuplicateTilesAt_eq_count hc0
            have hguard2 :
                Multiset.count c0 tracked <
                  (canonMultiset orig orig).count c0 := by
              rw [← hcap]
              exact hguard
            have htr : (c0 ::ₘ tracked) ≤ canonMultiset orig orig := by
              rw [Multiset.le_iff_count]
              intro x
              have h6 := Multiset.le_iff_count.1 h3 x
              by_cases hx : x = c0
              · subst hx
                rw [Multiset.count_cons_self]
                omega
              · rw [Multiset.count_cons_of_ne hx]
                omega
            obtain ⟨F', hF'eq, hF'len, hF'canon⟩ :=
              ihneed f ((i + 1) % 64) ((j + 1) % 64) (count + 1) (c0 ::ₘ tracked)
                (off.set (j % 64) (getT P (i % 64)))
                (by omega) (by omega) htr
                (by rw [Multiset.card_cons]; omega) (by omega)
            refine ⟨getT P (i % 64) :: F', ?_, by simp [hF'len], ?_⟩
            · simp only [fillLoop, if_neg hne, hc0, if_pos hguard]
              rw [hF'eq, writeCirc, writeCirc_mod]
            · rw [List.map_cons, ← Multiset.cons_coe, hF'canon,
                canonC_eq_of_some hc0]
              rw [Multiset.ext]
              intro x
              have h6 := Multiset.le_iff_count.1 h3 x
              by_cases hx : x = c0
              · subst hx
                rw [Multiset.count_cons_self, Multiset.count_sub,
                  Multiset.count_sub, Multiset.count_cons_self]
                omega
              · rw [Multiset.count_cons_of_ne hx, Multiset.count_sub,
                  Multiset.count_sub, Multiset.count_cons_of_ne hx]
          · obtain ⟨m, hm, hplm⟩ := hpl
            have hm0 : m ≠ 0 := by
              intro hm0
              subst hm0
              obtain ⟨c, hc, hcnt⟩ := hplm
              rw [Nat.add_zero] at hc
              rw [hc0] at hc
              cases hc
              exact hguard hcnt
            have hpl2 : ∃ m2, m2 < v ∧
                isPlace orig P tracked ((i + 1) % 64 + m2) := by
              refine ⟨m - 1, by omega, ?_⟩
              obtain ⟨c, hc, hcnt⟩ := hplm
              refine ⟨c, ?_, hcnt⟩
              have harith : ((i + 1) % 64 + (m - 1)) % 64 = (i + m) % 64 := by
                rw [Nat.mod_add_mod]
                congr 1
                omega
              rw [harith]
              exact hc
            obtain ⟨F, hFeq, hFlen, hFcanon⟩ :=
              ihw f ((i + 1) % 64) j count tracked off h1 h2 h3 h4
                (by omega) hpl2
            refine ⟨F, ?_, hFlen, hFcanon⟩
            simp only [fillLoop, if_neg hne, hc0, if_neg hguard]
            exact hFeq
    intro fuel i j count tracked off h1 h2 h3 h4 h5
    have hstrict : ∃ c, Multiset.count c tracked <
        Multiset.count c (canonMultiset orig orig) := by
      by_contra hall
      push_neg at hall
      have hle : canonMultiset orig orig ≤ tracked :=
        Multiset.le_iff_count.2 hall
      have := Multiset.card_le_card hle
      omega
    obtain ⟨c, hc⟩ := hstrict
    have hcpos : 0 < Multiset.count c (canonMultiset orig orig) := by omega
    have hcmem : c ∈ canonMultiset orig P := by
      rw [hPcanon]
      exact Multiset.count_pos.1 hcpos
    obtain ⟨t, ht, hct⟩ := List.mem_map.1 (Multiset.mem_coe.1 hcmem)
    obtain ⟨k, hk, hPk⟩ := List.mem_iff_getElem.1 ht
    have hk64 : k < 64 := by rw [hP64] at hk; omega
    obtain ⟨c2, hc2⟩ := Option.isSome_iff_exists.1 (hfound t ht)
    have hc2c : c2 = c := by
      rw [← hct]
      exact (canonC_eq_of_some hc2).symm
    subst hc2c
    have hplace : isPlace orig P tracked (i + (k + 64 - i % 64) % 64) := by
      have harith : (i + (k + 64 - i % 64) % 64) % 64 = k := by omega
      have hgt : getT P ((i + (k + 64 - i % 64) % 64) % 64) = t := by
        rw [harith, getT_eq_getElem _ _ hk, hPk]
      refine ⟨c2, ?_, ?_⟩
      · rw [hgt]
        exact hc2
      · rw [recordDuplicateTilesAt_eq_count hc2]
        exact hc
    exact window 64 fuel i j count tracked off h1 h2 h3 h4 (by omega)
      ⟨(k + 64 - i % 64) % 64, by omega, hplace⟩

/-- `orderCrossover` (evol-puzzle.cpp:636): snapshot both parents, order
the two drawn crossover points, copy the segment `[q1, q2)` across
(parent1's segment into offspring2 and parent2's into offspring1),
initialise each offspring's consumed counts from its inherited segment
(tiles whose signature the tile-identity map does not know are silently
skipped, mirroring `if (tile_found.first)` at evol-puzzle.cpp:672), then
fill the complement circularly from the scan of the offspring's own
parent starting at the second point.  The C++ maps `duplicatesMap` and
`map_of_tiles` are the functions `recordDuplicateTilesAt orig` and
`mapOfTilesAt orig` used inside `fillLoop`.  `fuel` bounds the unbounded
C++ fill loops; `none` models non-termination or an out-of-range lookup,
both ruled out for multiset-faithful parents by
`orderCrossover_preserves_canonical_multiset`. -/
def orderCrossover (fuel : ℕ) (orig off1 off2 : List Tile) (cp1 cp2 : ℕ) :
    Option (List Tile × List Tile) :=
  let q1 := min cp1 cp2
  let q2 := max cp1 cp2
  let seg1 := (off1.take q2).drop q1
  let seg2 := (off2.take q2).drop q1
  let off1s := writeCirc off1 q1 seg2
  let off2s := writeCirc off2 q1 seg1
  let t1 : Multiset Tile := ↑(seg1.filterMap (mapOfTilesAt orig))
  let t2 : Multiset Tile := ↑(seg2.filterMap (mapOfTilesAt orig))
  let countLimit := 64 - (q2 - q1)
  match fillLoop orig off2 countLimit fuel q2 q2 0 t1 off2s,
        fillLoop orig off1 countLimit fuel q2 q2 0 t2 off1s with
  | some o2, some o1 => some (o1, o2)
  | _, _ => none

theorem orderCrossover_eq (fuel : ℕ) (orig p1 p2 : List Tile) (cp1 cp2 : ℕ)
    (o1 o2 : List Tile)
    (hf2 : fillLoop orig p2 (64 - (max cp1 cp2 - min cp1 cp2)) fuel
        (max cp1 cp2) (max cp1 cp2) 0
        ↑(((p1.take (max cp1 cp2)).drop (min cp1 cp2)).filterMap
          (mapOfTilesAt orig))
        (writeCirc p2 (min cp1 cp2)
          ((p1.take (max cp1 cp2)).drop (min cp1 cp2))) = some o2)
    (hf1 : fillLoop orig p1 (64 - (max cp1 cp2 - min cp1 cp2)) fuel
        (max cp1 cp2) (max cp1 cp2) 0
        ↑(((p2.take (max cp1 cp2)).drop (min cp1 cp2)).filterMap
          (mapOfTilesAt orig))
        (writeCirc p1 (min cp1 cp2)
          ((p2.take (max cp1 cp2)).drop (min cp1 cp2))) = some o1) :
    orderCrossover fuel orig p1 p2 cp1 cp2 = some (o1, o2) := by
  simp only [orderCrossover]
  rw [hf2, hf1]

theorem filterMap_eq_map_of_found {orig : List Tile} :
    ∀ {L : List Tile}, (∀ t ∈ L, (mapOfTilesAt orig t).isSome) →
    L.filterMap (mapOfTilesAt orig) = L.map (canonC orig) := by
  intro L
  induction L with
  | nil => intro h; rfl
  | cons a tl ih =>
    intro h
    obtain ⟨c, hc⟩ := Option.isSome_iff_exists.1 (h a (List.mem_cons_self a tl))
    rw [List.filterMap_cons, hc, List.map_cons, canonC_eq_of_some hc,
      ih (fun t ht => h t (List.mem_cons_of_mem a ht))]

theorem canonMultiset_append (orig a b : List Tile) :
    canonMultiset orig (a ++ b) = canonMultiset orig a + canonMultiset orig b := by
  rw [canonMultiset, canonMultiset, canonMultiset, List.map_append,
    ← Multiset.coe_add]

theorem canonMultiset_sublist_le (orig : List Tile) {a b : List Tile}
    (h : a.Sublist b) : canonMultiset orig a ≤ canonMultiset orig b := by
  rw [canonMultiset, canonMultiset, Multiset.coe_le]
  exact (h.map (canonC orig)).subperm

theorem canonMultiset_card (orig p : List Tile) :
    Multiset.card (canonMultiset orig p) = p.length := by
  rw [canonMultiset, Multiset.coe_card, List.length_map]

theorem orderCrossover_fill_side (orig P Q : List Tile) (cp1 cp2 fuel : ℕ)
    (ho : orig.length = 64) (hP64 : P.length = 64) (hQ64 : Q.length = 64)
    (hc1 : cp1 < 64) (hc2 : cp2 < 64) (hfuel : 64 * 64 < fuel)
    (hP : canonMultiset orig P = canonMultiset orig orig)
    (hQ : canonMultiset orig Q = canonMultiset orig orig) :
    ∃ o : List Tile,
      fillLoop orig P (64 - (max cp1 cp2 - min cp1 cp2)) fuel
        (max cp1 cp2) (max cp1 cp2) 0
        ↑(((Q.take (max cp1 cp2)).drop (min cp1 cp2)).filterMap
          (mapOfTilesAt orig))
        (writeCirc P (min cp1 cp2) ((Q.take (max cp1 cp2)).drop (min cp1 cp2)))
        = some o ∧
      canonMultiset orig o = canonMultiset orig orig := by
  set q1 := min cp1 cp2 with hq1
  set q2 := max cp1 cp2 with hq2
  have hq12 : q1 ≤ q2 := by
    rw [hq1, hq2]
    exact min_le_max
  have hq2lt : q2 < 64 := by
    rw [hq2]
    exact max_lt hc1 hc2
  set seg := (Q.take q2).drop q1 with hseg
  have hsegsub : seg.Sublist Q :=
    (List.drop_sublist _ _).trans (List.take_sublist _ _)
  have hsegfound : ∀ t ∈ seg, (mapOfTilesAt orig t).isSome :=
    fun t ht => found_of_canonMultiset_eq hQ t (hsegsub.subset ht)
  have hfm : seg.filterMap (mapOfTilesAt orig) = seg.map (canonC orig) :=
    filterMap_eq_map_of_found hsegfound
  have hseglen : seg.length = q2 - q1 := by
    rw [hseg, List.length_drop, List.length_take, hQ64]
    omega
  have htle : canonMultiset orig seg ≤ canonMultiset orig orig :=
    le_of_le_of_eq (canonMultiset_sublist_le orig hsegsub) hQ
  obtain ⟨F, hFeq, hFlen, hFcanon⟩ :=
    fillLoop_spec orig P (64 - (q2 - q1)) hP64 hP (64 - (q2 - q1)) fuel
      q2 q2 0 ↑(seg.filterMap (mapOfTilesAt orig)) (writeCirc P q1 seg)
      rfl (Nat.zero_le _)
      (by rw [hfm]; exact htle)
      (by
        rw [hfm]
        have hc := canonMultiset_card orig seg
        rw [canonMultiset] at hc
        rw [hc, canonMultiset_card, ho, hseglen]
        omega)
      (by omega)
  refine ⟨writeCirc (writeCirc P q1 seg) q2 F, hFeq, ?_⟩
  have hbaselen : (writeCirc P q1 seg).length = 64 := by
    rw [writeCirc_length, hP64]
  have hbase : writeCirc P q1 seg = P.take q1 ++ seg ++ P.drop q2 := by
    rw [writeCirc_nowrap seg P q1 hP64 (by omega), hseglen]
    have : q1 + (q2 - q1) = q2 := by omega
    rw [this]
  have htq1len : (P.take q1).length = q1 := by
    rw [List.length_take, hP64]
    omega
  have htq2 : (writeCirc P q1 seg).take q2 = P.take q1 ++ seg := by
    have hstep1 : (P.take q1 ++ (seg ++ P.drop q2)).take q2 =
        (P.take q1).take q2 ++ (seg ++ P.drop q2).take (q2 - (P.take q1).length) :=
      List.take_append_eq_append_take
    have hstep2 : (seg ++ P.drop q2).take (q2 - q1) =
        seg.take (q2 - q1) ++ (P.drop q2).take ((q2 - q1) - seg.length) :=
      List.take_append_eq_append_take
    have hA : (P.take q1).take q2 = P.take q1 := by
      rw [List.take_take]
      congr 1
      omega
    have hB : seg.take (q2 - q1) = seg :=
      List.take_of_length_le (le_of_eq hseglen)
    have hC : (q2 - q1) - seg.length = 0 := by omega
    rw [hbase, List.append_assoc, hstep1, htq1len, hstep2, hA, hB, hC,
      List.take_zero, List.append_nil]
  have hmid : ((writeCirc P q1 seg).take q2).drop q1 = seg := by
    rw [htq2]
    have hstep : (P.take q1 ++ seg).drop q1 =
        (P.take q1).drop q1 ++ seg.drop (q1 - (P.take q1).length) :=
      List.drop_append_eq_append_drop
    have hA : (P.take q1).drop q1 = [] :=
      List.drop_eq_nil_of_le (le_of_eq htq1len)
    rw [hstep, htq1len, hA]
    have hB : q1 - q1 = 0 := by omega
    rw [hB, List.nil_append, List.drop_zero]
  have hwrap : writeCirc (writeCirc P q1 seg) q2 F =
      F.drop (64 - q2) ++ ((writeCirc P q1 seg).take q2).drop q1 ++
        F.take (64 - q2) :=
    writeCirc_wrap _ F q1 q2 hbaselen hq12 hq2lt (by omega)
  rw [hwrap, hmid]
  have hFsplit : (F.take (64 - q2) ++ F.drop (64 - q2) : List Tile) = F :=
    List.take_append_drop _ F
  have hFm : canonMultiset orig F = canonMultiset orig orig -
      canonMultiset orig seg := by
    rw [canonMultiset]
    rw [hfm] at hFcanon
    exact hFcanon
  have hsum : canonMultiset orig (F.take (64 - q2)) +
      canonMultiset orig (F.drop (64 - q2)) = canonMultiset orig F := by
    rw [← canonMultiset_append, hFsplit]
  rw [canonMultiset_append, canonMultiset_append]
  have hrearr : canonMultiset orig (F.drop (64 - q2)) +
      canonMultiset orig seg + canonMultiset orig (F.take (64 - q2)) =
      canonMultiset orig (F.take (64 - q2)) +
      canonMultiset orig (F.drop (64 - q2)) + canonMultiset orig seg := by
    rw [add_right_comm, add_comm (canonMultiset orig (F.drop (64 - q2)))]
  rw [hrearr, hsum, hFm]
  exact tsub_add_cancel_of_le htle

/-- Claim C1: for every pair of parent puzzles each containing exactly the
original puzzle's multiset of canonical (rotation-normalised) tiles, and
for every choice of the two crossover points, `orderCrossover` terminates
and produces two offspring such that each offspring's multiset of
canonical tiles equals the original puzzle's multiset exactly — no
canonical tile exceeds its original multiplicity and none is dropped. -/
theorem orderCrossover_preserves_canonical_multiset
    (orig p1 p2 : List Tile) (cp1 cp2 fuel : ℕ)
    (ho : orig.length = 64) (h1l : p1.length = 64) (h2l : p2.length = 64)
    (hc1 : cp1 < 64) (hc2 : cp2 < 64) (hfuel : 64 * 64 < fuel)
    (h1 : canonMultiset orig p1 = canonMultiset orig orig)
    (h2 : canonMultiset orig p2 = canonMultiset orig orig) :
    ∃ o1 o2 : List Tile,
      orderCrossover fuel orig p1 p2 cp1 cp2 = some (o1, o2) ∧
      canonMultiset orig o1 = canonMultiset orig orig ∧
      canonMultiset orig o2 = canonMultiset orig orig := by
  obtain ⟨o2, ho2eq, ho2c⟩ :=
    orderCrossover_fill_side orig p2 p1 cp1 cp2 fuel ho h2l h1l hc1 hc2 hfuel h2 h1
  obtain ⟨o1, ho1eq, ho1c⟩ :=
    orderCrossover_fill_side orig p1 p2 cp1 cp2 fuel ho h1l h2l hc1 hc2 hfuel h1 h2
  exact ⟨o1, o2, orderCrossover_eq fuel orig p1 p2 cp1 cp2 o1 o2 ho2eq ho1eq,
    ho1c, ho2c⟩

theorem orderCrossover_preserves_canonical_multiset_witness :
    pzA.length = 64 ∧ 20 < 64 ∧ 5 < 64 ∧ 64 * 64 < 4097 ∧
    canonMultiset pzA pzA = canonMultiset pzA pzA ∧
    (∃ o1 o2 : List Tile,
      orderCrossover 4097 pzA pzA pzA 20 5 = some (o1, o2) ∧
      canonMultiset pzA o1 = canonMultiset pzA pzA ∧
      canonMultiset pzA o2 = canonMultiset pzA pzA) :=
  ⟨by decide, by decide, by decide, by decide, rfl,
    orderCrossover_preserves_canonical_multiset pzA pzA pzA 20 5 4097
      (by decide) (by decide) (by decide) (by decide) (by decide) (by decide)
      rfl rfl⟩

/-- One perturbation pass of `generatePopulation` (evol-puzzle.cpp:509-513):
32 iterations of `swapTile(arr_copy)` followed by
`rotateToLeftByOneIndex(arr_copy[j])` at the loop index `j`.  (The
`#pragma omp parallel for` data race on the shared working copy is
modelled by the sequential reference behaviour, spec section 4.4.) -/
def perturbPass : ℕ → ℕ → List Tile → List (Fin 64) →
    Option (List Tile × List (Fin 64))
  | 0, _, p, draws => some (p, draws)
  | rem + 1, j, p, draws =>
    match swapTile p draws with
    | none => none
    | some (p2, rest) =>
      perturbPass rem (j + 1) (p2.set j (rotateToLeftByOneIndex (getT p2 j)))
        rest

/-- Individuals `1 .. N-1` of `generatePopulation`
(evol-puzzle.cpp:508-520): the working copy evolves cumulatively across
iterations and is snapshotted into each successive slot. -/
def genPopTail : ℕ → List Tile → List (Fin 64) →
    Option (List (List Tile))
  | 0, _, _ => some []
  | rem + 1, cur, draws =>
    match perturbPass 32 0 cur draws with
    | none => none
    | some (next, rest) =>
      match genPopTail rem next rest with
      | none => none
      | some tail => some (next :: tail)

/-- `generatePopulation` (evol-puzzle.cpp:492): slot 0 receives an exact
copy of the seed puzzle; every later slot receives the next state of the
cumulatively perturbed working copy.  In `evolve` the seed passed in is
`best_puzzle_so_far`, which is a pointer into the live population
(evol-puzzle.cpp:757), so repopulation reads the seed through that
pointer and then overwrites every slot, including the aliased one. -/
def generatePopulation (base : List Tile) (populationSize : ℕ)
    (draws : List (Fin 64)) : Option (List (List Tile)) :=
  match genPopTail (populationSize - 1) base draws with
  | none => none
  | some tail => some (base :: tail)

/-- A population of three individuals in which the all-time best was
recorded as a pointer to slot 1 (content `pzB`). -/
def popC2 : List (List Tile) := [pzA, pzB, pzB]

/-- The random stream driving the repopulation of the counterexample: the
draw sequence 0, 1, 2, 3, ... (mod 64), under which every `swapTile`
consumes exactly two draws. -/
def drawsC2 : List (Fin 64) :=
  (List.range 200).map (fun n => (⟨n % 64, Nat.mod_lt n (by omega)⟩ : Fin 64))

/-- Claim C2 (code bug): global elitism is violated by pointer aliasing.
`evolve` records the all-time best as `best_puzzle_so_far =
population_arr[idx]` — a pointer into the live population
(evol-puzzle.cpp:757) — and the stagnation-triggered repopulation
(evol-puzzle.cpp:771) passes that pointer as the seed and then overwrites
every slot.  With the best recorded at slot 1 (content `pzB`), the seed
copy lands in slot 0 but slot 1 is overwritten with a perturbed
individual, so the content behind the recorded pointer no longer equals
the best individual ever seen: the puzzle reported at termination through
that pointer is not the all-time best. -/
theorem bestPointer_corrupted_by_repopulation :
    ((generatePopulation (popC2.getD 1 []) 3 drawsC2).getD []).getD 0 [] =
      popC2.getD 1 [] ∧
    ((generatePopulation (popC2.getD 1 []) 3 drawsC2).getD []).getD 1 [] ≠
      popC2.getD 1 [] := by
  constructor
  · rfl
  · decide

theorem getD_set_self_gen {α : Type} (l : List α) (i : ℕ) (v d : α)
    (h : i < l.length) : (l.set i v).getD i d = v := by
  rw [List.getD_eq_getElem _ _ (by simpa using h), List.getElem_set]
  simp

theorem getD_set_ne_gen {α : Type} (l : List α) (i k : ℕ) (v d : α)
    (hne : i ≠ k) : (l.set i v).getD k d = l.getD k d := by
  by_cases hk : k < l.length
  · rw [List.getD_eq_getElem _ _ (by simpa using hk),
      List.getD_eq_getElem _ _ hk]
    exact List.getElem_set_ne hne _
  · rw [List.getD_eq_default _ _ (by simpa using Nat.le_of_not_lt hk),
      List.getD_eq_default _ _ (Nat.le_of_not_lt hk)]

/-- The offspring-generation driver `crossover` (evol-puzzle.cpp:860) as a
loop over the counter values `i = 0, 2, 4, ...` (the list `is`): when
`i + 1 < parent_index_vec.size()`, offspring1 is a copy of the parent at
`parent_index_vec[i]` and offspring2 a copy of the parent at
`parent_index_vec[size - i - 1]`; `orderCrossover` runs on the pair only
when the current generation's best mismatch count is at most 10 (its two
crossover points drawn from the injected stream), and the results are
stored at offspring-buffer slots `i` and `size - i - 1`.  The driver never
references `twoPointCrossover`. -/
def crossLoop (pop : List (List Tile)) (parentIdx : List ℕ) (orig : List Tile)
    (minMismatch fuel : ℕ) :
    List ℕ → List (Fin 64) → List (List Tile) →
    Option (List (List Tile) × List (Fin 64))
  | [], draws, off => some (off, draws)
  | i :: is, draws, off =>
    if i + 1 < parentIdx.length then
      let o1 := pop.getD (parentIdx.getD i 0) []
      let o2 := pop.getD (parentIdx.getD (parentIdx.length - i - 1) 0) []
      if minMismatch ≤ 10 then
        match draws with
        | d1 :: d2 :: rest =>
          match orderCrossover fuel orig o1 o2 (d1 : ℕ) (d2 : ℕ) with
          | none => none
          | some (o1x, o2x) =>
            crossLoop pop parentIdx orig minMismatch fuel is rest
              ((off.set i o1x).set (parentIdx.length - i - 1) o2x)
        | _ => none
      else
        crossLoop pop parentIdx orig minMismatch fuel is draws
          ((off.set i o1).set (parentIdx.length - i - 1) o2)
    else crossLoop pop parentIdx orig minMismatch fuel is draws off

/-- `crossover` (evol-puzzle.cpp:860): the loop `for (i = 0; i < size;
i += 2)` visits the counter values `0, 2, ..., 2 * (ceil(size / 2) - 1)`. -/
def crossover (pop : List (List Tile)) (parentIdx : List ℕ) (orig : List Tile)
    (minMismatch fuel : ℕ) (draws : List (Fin 64)) (off : List (List Tile)) :
    Option (List (List Tile) × List (Fin 64)) :=
  crossLoop pop parentIdx orig minMismatch fuel
    (List.range' 0 ((parentIdx.length + 1) / 2) 2) draws off

theorem crossLoop_high (pop : List (List Tile)) (parentIdx : List ℕ)
    (orig : List Tile) (minMismatch fuel : ℕ) (hmm10 : 10 < minMismatch)
    (heven : parentIdx.length % 2 = 0) :
    ∀ m s : ℕ, ∀ off : List (List Tile), ∀ draws : List (Fin 64),
    s + 2 * m = parentIdx.length → s % 2 = 0 →
    off.length = parentIdx.length →
    ∃ r : List (List Tile),
      crossLoop pop parentIdx orig minMismatch fuel
        (List.range' s m 2) draws off = some (r, draws) ∧
      r.length = parentIdx.length ∧
      (∀ k, ((k % 2 = 0 ∧ s ≤ k ∧ k < parentIdx.length) ∨
            (k % 2 = 1 ∧ k < parentIdx.length - s)) →
        r.getD k [] = pop.getD (parentIdx.getD k 0) []) ∧
      (∀ k, ¬((k % 2 = 0 ∧ s ≤ k ∧ k < parentIdx.length) ∨
            (k % 2 = 1 ∧ k < parentIdx.length - s)) →
        r.getD k [] = off.getD k []) := by
  intro m
  induction m with
  | zero =>
    intro s off draws hsum hs2 hofflen
    refine ⟨off, rfl, hofflen, ?_, fun k _ => rfl⟩
    intro k hk
    exfalso
    rcases hk with ⟨hp, h1, h2⟩ | ⟨hp, h1⟩ <;> omega
  | succ mm ih =>
    intro s off draws hsum hs2 hofflen
    have hL := hsum
    set L := parentIdx.length with hLdef
    have hcond : s + 1 < L := by omega
    have hdistinct : L - s - 1 ≠ s := by omega
    set o1 := pop.getD (parentIdx.getD s 0) [] with ho1
    set o2 := pop.getD (parentIdx.getD (L - s - 1) 0) [] with ho2
    set off2 := (off.set s o1).set (L - s - 1) o2 with hoff2
    obtain ⟨r, heq, hrlen, hband, hout⟩ :=
      ih (s + 2) off2 draws (by omega) (by omega)
        (by rw [hoff2]; simp [hofflen])
    refine ⟨r, ?_, hrlen, ?_, ?_⟩
    · rw [List.range'_succ]
      simp only [crossLoop, if_pos hcond, if_neg (by omega : ¬minMismatch ≤ 10)]
      exact heq
    · intro k hk
      by_cases hks : k = s
      · subst hks
        rw [hout k (by omega)]
        rw [hoff2, getD_set_ne_gen _ _ _ _ _ hdistinct,
          getD_set_self_gen _ _ _ _ (by omega)]
      · by_cases hkl : k = L - s - 1
        · subst hkl
          rw [hout _ (by omega)]
          rw [hoff2, getD_set_self_gen _ _ _ _ (by simp [hofflen]; omega)]
        · refine hband k ?_
          rcases hk with ⟨hp, h1, h2⟩ | ⟨hp, h1⟩
          · exact Or.inl ⟨hp, by omega, h2⟩
          · exact Or.inr ⟨hp, by omega⟩
    · intro k hk
      have hknots : k ≠ s := by
        intro hks
        subst hks
        exact hk (Or.inl ⟨by omega, by omega, by omega⟩)
      have hknotl : k ≠ L - s - 1 := by
        intro hkl
        subst hkl
        exact hk (Or.inr ⟨by omega, by omega⟩)
      rw [hout k (by
        intro hcon
        refine hk ?_
        rcases hcon with ⟨hp, h1, h2⟩ | ⟨hp, h1⟩
        · exact Or.inl ⟨hp, by omega, h2⟩
        · exact Or.inr ⟨hp, by omega⟩)]
      rw [hoff2, getD_set_ne_gen _ _ _ _ _ (Ne.symm hknotl),
        getD_set_ne_gen _ _ _ _ _ (Ne.symm hknots)]

/-- Claim C10: whenever the current generation's best mismatch count
exceeds 10, the crossover step performs no recombination at all: the
offspring buffer is filled with exact copies of the selected parents
(buffer slot `k` receives the parent at `parent_index_vec[k]`, which is
exactly the front-to-back against back-to-front pairing of the loop), and
the random stream is returned untouched.  The driver `crossover` never
invokes the two-point segment-swap operator — its definition contains no
reference to `twoPointCrossover` for any mismatch count. -/
theorem crossover_no_recombination_when_mismatch_high
    (pop : List (List Tile)) (parentIdx : List ℕ) (orig : List Tile)
    (minMismatch fuel : ℕ) (draws : List (Fin 64)) (off : List (List Tile))
    (hmm10 : 10 < minMismatch) (heven : parentIdx.length % 2 = 0)
    (hoff : off.length = parentIdx.length) :
    crossover pop parentIdx orig minMismatch fuel draws off =
      some ((List.range parentIdx.length).map
        (fun k => pop.getD (parentIdx.getD k 0) []), draws) := by
  obtain ⟨r, heq, hrlen, hband, hout⟩ :=
    crossLoop_high pop parentIdx orig minMismatch fuel hmm10 heven
      (parentIdx.length / 2) 0 off draws (by omega) (by omega) hoff
  unfold crossover
  have h2 : (parentIdx.length + 1) / 2 = parentIdx.length / 2 := by omega
  rw [h2, heq]
  congr 2
  refine List.ext_getElem
    (by rw [hrlen, List.length_map, List.length_range]) ?_
  intro n h1 h2x
  rw [List.getElem_map, List.getElem_range, ← List.getD_eq_getElem r [] h1]
  refine hband n ?_
  have hn : n < parentIdx.length := by rw [← hrlen]; exact h1
  omega

/-- A concrete four-individual population for the no-recombination
witness. -/
def popC10 : List (List Tile) :=
  [[⟨1, 1, 1, 1⟩], [⟨2, 2, 2, 2⟩], [⟨3, 3, 3, 3⟩], [⟨4, 4, 4, 4⟩]]

theorem crossover_no_recombination_when_mismatch_high_witness :
    10 < 11 ∧ ([0, 1, 2, 3] : List ℕ).length % 2 = 0 ∧
    ([[], [], [], []] : List (List Tile)).length =
      ([0, 1, 2, 3] : List ℕ).length ∧
    crossover popC10 [0, 1, 2, 3] [] 11 0 ([] : List (Fin 64))
        [[], [], [], []] =
      some ((List.range ([0, 1, 2, 3] : List ℕ).length).map
        (fun k => popC10.getD (([0, 1, 2, 3] : List ℕ).getD k 0) []),
        ([] : List (Fin 64))) :=
  ⟨by decide, by decide, by decide,
    crossover_no_recombination_when_mismatch_high popC10 [0, 1, 2, 3] [] 11 0
      ([] : List (Fin 64)) [[], [], [], []] (by decide) (by decide) (by decide)⟩
